import Mathlib

/-!
Shallow embedding of the FORE core (src/core/field.rs, src/core/transform.rs,
src/core/system.rs).  Machine integers are modelled as `Nat` with explicit
`% 2 ^ 32` / `% 2 ^ 64` wrapping where the Rust code relies on fixed-width
behaviour (casts, `wrapping_add`, `wrapping_sub`, `wrapping_neg`).
-/

/-- Mersenne prime p = 2^31 - 1 (`P` in field.rs). -/
def P : Nat := 2147483647

/-- Default φ component a (field.rs `PHI_A`). -/
def PHI_A : Nat := 0

/-- Default φ component b (field.rs `PHI_B`). -/
def PHI_B : Nat := 1

/-- p² (field.rs `P_SQUARED`). -/
def P_SQUARED : Nat := P * P

/-- p² - 1, the multiplicative group order (field.rs `GROUP_ORDER`). -/
def GROUP_ORDER : Nat := P_SQUARED - 1

/-- GFp2 element (a + b*x) with x² = x + 1 mod p; fields are u32 values. -/
structure GFp2 where
  a : Nat
  b : Nat
deriving DecidableEq, Repr

/-- field.rs `modp`: two-round shift-and-mask reduction for u64 input.
The final `r as u32` cast is the `% 2 ^ 32`. -/
def modp (x : Nat) : Nat :=
  let r := (x >>> 31) + (x &&& (2 ^ 31 - 1))
  let r := (r >>> 31) + (r &&& (2 ^ 31 - 1))
  let r := r % 2 ^ 32
  if r ≥ P then r - P else r

/-- field.rs `mul_mod`. -/
def mul_mod (a b : Nat) : Nat :=
  let r := modp (a * b)
  if r ≥ P then r - P else r

/-- field.rs `add_mod`; `wrapping_add` on u32 is `% 2 ^ 32`. -/
def add_mod (a b : Nat) : Nat :=
  let s := (a + b) % 2 ^ 32
  if s ≥ P then s - P else s

/-- field.rs `sub_mod`; `a.wrapping_sub(b)` on u32 is `(2^32 + a - b) % 2^32`,
and `d.wrapping_add(P)` is `(d + P) % 2^32`. -/
def sub_mod (a b : Nat) : Nat :=
  let d := (2 ^ 32 + a - b) % 2 ^ 32
  if d > a then (d + P) % 2 ^ 32 else d

/-- field.rs `mul_gfp2`: (a+b*x)*(c+d*x) with x² = x+1. -/
def mul_gfp2 (x y : GFp2) : GFp2 :=
  let ac := mul_mod x.a y.a
  let bd := mul_mod x.b y.b
  let ad_bc := add_mod (mul_mod x.a y.b) (mul_mod x.b y.a)
  { a := add_mod ac bd, b := add_mod ad_bc bd }

/-- field.rs `to_gfp2`. -/
def to_gfp2 (d : Nat) : GFp2 :=
  { a := d % P, b := 0 }

/-- field.rs `negative_exponent`: both `as u32` casts are `% 2 ^ 32`. -/
def negative_exponent (k : Nat) : Nat :=
  let k_reduced := (k % GROUP_ORDER) % 2 ^ 32
  ((GROUP_ORDER - k_reduced) % GROUP_ORDER) % 2 ^ 32

/-- Bitwise NOT on u32 (`!mask` in Rust), for m < 2^32. -/
def not32 (m : Nat) : Nat := 2 ^ 32 - 1 - m

/-- Bit length of a u32 value, i.e. `32 - e.leading_zeros()` in field.rs
`exp_phi`; computed with structural fuel (32 suffices for any u32). -/
def bitLenAux : Nat → Nat → Nat
  | 0, _ => 0
  | f + 1, n => if n = 0 then 0 else bitLenAux f (n / 2) + 1

/-- `32 - e.leading_zeros()` for a u32 value e. -/
def bits32 (e : Nat) : Nat := bitLenAux 32 e

/-- One iteration body of the field.rs `exp_phi` loop: bit extraction,
`wrapping_neg` mask, branchless select, then squaring of `current`. -/
def expStep (e i : Nat) (result current : GFp2) : GFp2 × GFp2 :=
  let bit := (e >>> i) &&& 1
  let mask := (2 ^ 32 - bit) % 2 ^ 32
  let temp := mul_gfp2 result current
  let result := GFp2.mk ((not32 mask &&& result.a) ||| (mask &&& temp.a))
                        ((not32 mask &&& result.b) ||| (mask &&& temp.b))
  (result, mul_gfp2 current current)

/-- The field.rs `exp_phi` loop, running `f` iterations starting at bit `i`. -/
def expIter (e : Nat) : Nat → Nat → GFp2 → GFp2 → GFp2
  | _, 0, result, _ => result
  | i, f + 1, result, current =>
    let rc := expStep e i result current
    expIter e (i + 1) f rc.1 rc.2

/-- field.rs `exp_phi`: reduce the u32 exponent mod GROUP_ORDER (the `as u32`
cast of the result is `% 2 ^ 32`), then run the branchless square-and-multiply
loop for `32 - e.leading_zeros()` iterations. -/
def exp_phi (base : GFp2) (e0 : Nat) : GFp2 :=
  let e := (e0 % GROUP_ORDER) % 2 ^ 32
  expIter e 0 (bits32 e) (GFp2.mk 1 0) base

/-- field.rs `exp_phi_inverse`. -/
def exp_phi_inverse (base : GFp2) (k : Nat) : GFp2 :=
  exp_phi base (negative_exponent k)

/-- Fully reduced GFp2 representative: both components in [0, p). -/
def reduced (v : GFp2) : Prop := v.a < P ∧ v.b < P

instance (v : GFp2) : Decidable (reduced v) := by
  unfold reduced; infer_instance

/-!  transform.rs  -/

/-- transform.rs `get_chunk_size`:
`TARGET_CHUNK_SIZE.min(TARGET_CHUNK_SIZE * cpu_count).max(MIN_CHUNK_SIZE)`,
parametrised by the detected logical core count. -/
def get_chunk_size (cpu_count : Nat) : Nat :=
  Nat.max (Nat.min (256 * 1024) (256 * 1024 * cpu_count)) (4 * 1024)

/-- The field negation written inline in transform.rs `binary_haar_transform`. -/
def gneg (v : GFp2) : GFp2 := GFp2.mk (sub_mod 0 v.a) (sub_mod 0 v.b)

/-- transform.rs `binary_haar_transform` body: the data is cut into contiguous
chunks of `cs` elements (`par_chunks_mut`), and within each chunk the element
at odd local index (`enumerate` restarts at 0 in every chunk, so the local
index resets whenever it reaches `cs`) is negated. -/
def haarAux (cs : Nat) : Nat → List GFp2 → List GFp2
  | _, [] => []
  | i, v :: rest =>
    (if i % 2 = 1 then gneg v else v) ::
      haarAux cs (if i + 1 = cs then 0 else i + 1) rest

/-- transform.rs `binary_haar_transform` with chunk size `cs`. -/
def binary_haar_transform (cs : Nat) (data : List GFp2) : List GFp2 :=
  haarAux cs 0 data

/-- Global-index sign alternation starting at index `g` (the behaviour §4.2 of
the spec ascribes to the Haar pass: negate at odd global index). -/
def haarGlobal : Nat → List GFp2 → List GFp2
  | _, [] => []
  | g, v :: rest => (if g % 2 = 1 then gneg v else v) :: haarGlobal (g + 1) rest

/-- Negation as the spec words it: v ↦ ((p − v.a) mod p, (p − v.b) mod p). -/
def gnegSpec (v : GFp2) : GFp2 := GFp2.mk ((P - v.a) % P) ((P - v.b) % P)

/-- Spec-worded global Haar pass (negation written as (p − c) mod p). -/
def haarSpecGlobal : Nat → List GFp2 → List GFp2
  | _, [] => []
  | g, v :: rest =>
    (if g % 2 = 1 then gnegSpec v else v) :: haarSpecGlobal (g + 1) rest

/-- transform.rs `apply_phi_transform`: returns the `Option<()>` signal
together with the final state of the mutated slice.  The parallel per-chunk
map applies an index-free function to every element, so its net effect on the
slice is the flat map. -/
def apply_phi_transform (data : List GFp2) (phi_k : GFp2) :
    Option Unit × List GFp2 :=
  if data.isEmpty then (none, data)
  else (some (), data.map (fun v => mul_gfp2 v phi_k))

/-!  system.rs  -/

/-- system.rs `ForeSystem`. -/
structure ForeSystem where
  phi_k : GFp2
  phi_neg_k : GFp2
deriving Repr

/-- system.rs `ForeSystem::new`. -/
def ForeSystem.new (key : Nat) : ForeSystem :=
  { phi_k := exp_phi (GFp2.mk PHI_A PHI_B) key
    phi_neg_k := exp_phi_inverse (GFp2.mk PHI_A PHI_B) key }

/-- system.rs `ForeSystem::to_frequency_domain`: Haar pass then phi pass (the
`Option` signal of the phi pass is discarded; on an empty slice the state is
unchanged, which coincides with mapping the empty list). -/
def ForeSystem.to_frequency_domain (s : ForeSystem) (cs : Nat)
    (data : List GFp2) : List GFp2 :=
  (apply_phi_transform (binary_haar_transform cs data) s.phi_k).2

/-- system.rs `ForeSystem::edit_frequency`. -/
def ForeSystem.edit_frequency (s : ForeSystem) (data : List GFp2)
    (level pos : Nat) (new_value : GFp2) : List GFp2 :=
  let span := 2 ^ level
  let start := pos * span
  if start < data.length then
    let transformed := mul_gfp2 new_value s.phi_k
    let d1 := data.set start transformed
    if start + span / 2 < d1.length then
      d1.set (start + span / 2)
        (GFp2.mk (sub_mod 0 transformed.a) (sub_mod 0 transformed.b))
    else d1
  else data

/-- The byte-recovery fold of system.rs `ForeSystem::reconstruct`, with `i`
the running enumerate index; the output string is modelled as the list of
pushed byte values (all pushed values are < 128, hence ASCII characters). -/
def reconstructAux : Nat → List GFp2 → List Nat
  | _, [] => []
  | i, v :: rest =>
    (if v.b = 0 then
      (let val := if i % 2 = 1 then sub_mod 0 v.a else v.a
       if val < 128 then [val] else [])
     else []) ++ reconstructAux (i + 1) rest

/-- system.rs `ForeSystem::reconstruct`: copy, align with φ⁻ᵏ, decode. -/
def ForeSystem.reconstruct (s : ForeSystem) (data : List GFp2) : List Nat :=
  reconstructAux 0 (apply_phi_transform data s.phi_neg_k).2

/-- system.rs `ForeSystem::process_data`. -/
def ForeSystem.process_data (s : ForeSystem) (cs : Nat) (data : List Nat) :
    List GFp2 :=
  s.to_frequency_domain cs (data.map (fun b => to_gfp2 b))

/-- One `pos` sweep of system.rs `ForeSystem::verify_relationships` at a fixed
span; out-of-range reads cannot occur in the source (`start < len` follows
from `pos < len / span`), the `getD` default is never consulted. -/
def verifyLevel (data : List GFp2) (span : Nat) : Bool :=
  (List.range (data.length / span)).all fun pos =>
    let start := pos * span
    if start + span / 2 < data.length then
      let first := data.getD start (GFp2.mk 0 0)
      let second := data.getD (start + span / 2) (GFp2.mk 0 0)
      add_mod first.a second.a == 0 && add_mod first.b second.b == 0
    else true

/-- The `while (1 << level) <= data.len()` loop of `verify_relationships`,
with structural fuel; `data.length + 1` units of fuel always outlast the
loop because `2 ^ level > level` for every level. -/
def verifyAux (data : List GFp2) : Nat → Nat → Bool
  | 0, _ => true
  | fuel + 1, level =>
    if 2 ^ level ≤ data.length then
      verifyLevel data (2 ^ level) && verifyAux data fuel (level + 1)
    else true

/-- system.rs `ForeSystem::verify_relationships`. -/
def ForeSystem.verify_relationships (_s : ForeSystem) (data : List GFp2) :
    Bool :=
  verifyAux data (data.length + 1) 0

/-- Naive mathematical power in GF(p²), the reference against which the
source exponentiation routines are measured. -/
def gpow (c : GFp2) : Nat → GFp2
  | 0 => GFp2.mk 1 0
  | n + 1 => mul_gfp2 c (gpow c n)

/-- Iterated squaring: `sqn x n = x^(2^n)`, used to evaluate `gpow` at
power-of-two exponents. -/
def sqn (x : GFp2) : Nat → GFp2
  | 0 => x
  | n + 1 => sqn (mul_gfp2 x x) n

/-- Components are valid u32 values. -/
def valid32 (v : GFp2) : Prop := v.a < 2 ^ 32 ∧ v.b < 2 ^ 32

instance (v : GFp2) : Decidable (valid32 v) := by
  unfold valid32; infer_instance

instance : NeZero P := ⟨by unfold P; omega⟩

/-- Interpretation of a GFp2 record in `ZMod P × ZMod P`. -/
def toZP (v : GFp2) : ZMod P × ZMod P := ((v.a : ZMod P), (v.b : ZMod P))

/-- The quotient-ring product on `ZMod P × ZMod P` matching `mul_gfp2`. -/
def zmul (x y : ZMod P × ZMod P) : ZMod P × ZMod P :=
  (x.1 * y.1 + x.2 * y.2, x.1 * y.2 + x.2 * y.1 + x.2 * y.2)

/-!  Scalar arithmetic lemmas  -/

theorem P_pos : 0 < P := by unfold P; omega

theorem GROUP_ORDER_eq : GROUP_ORDER = 4611686014132420608 := by
  norm_num [GROUP_ORDER, P_SQUARED, P]

theorem shift_round_mod (x : Nat) : (x / 2 ^ 31 + x % 2 ^ 31) % P = x % P := by
  have h : x = (x / 2 ^ 31 + x % 2 ^ 31) + (x / 2 ^ 31) * P := by
    unfold P; omega
  conv_rhs => rw [h]
  rw [Nat.add_mul_mod_self_right]

theorem modp_eq {x : Nat} (hx : x < 2 ^ 64) : modp x = x % P := by
  simp only [modp, Nat.shiftRight_eq_div_pow, Nat.and_pow_two_sub_one_eq_mod]
  have hb1 : x / 2 ^ 31 + x % 2 ^ 31 < 2 ^ 34 := by omega
  set r1 := x / 2 ^ 31 + x % 2 ^ 31 with hr1
  have h2 : (r1 / 2 ^ 31 + r1 % 2 ^ 31) % P = x % P :=
    (shift_round_mod r1).trans (shift_round_mod x)
  have hb2 : r1 / 2 ^ 31 + r1 % 2 ^ 31 < 2 ^ 31 + 8 := by omega
  set r2 := r1 / 2 ^ 31 + r1 % 2 ^ 31 with hr2
  clear_value r1 r2
  have hm : r2 % 2 ^ 32 = r2 := Nat.mod_eq_of_lt (by omega)
  rw [hm]
  unfold P at *
  split_ifs <;> omega

theorem modp_lt {x : Nat} (hx : x < 2 ^ 64) : modp x < P := by
  rw [modp_eq hx]; exact Nat.mod_lt _ P_pos

theorem mul_mod_eq {a b : Nat} (ha : a < 2 ^ 32) (hb : b < 2 ^ 32) :
    mul_mod a b = a * b % P := by
  have hab : a * b < 2 ^ 64 := by
    calc a * b < 2 ^ 32 * 2 ^ 32 := Nat.mul_lt_mul'' ha hb
    _ = 2 ^ 64 := by norm_num
  unfold mul_mod
  rw [modp_eq hab]
  have h : a * b % P < P := Nat.mod_lt _ P_pos
  simp [Nat.not_le.mpr h]

theorem mul_mod_lt {a b : Nat} (ha : a < 2 ^ 32) (hb : b < 2 ^ 32) :
    mul_mod a b < P := by
  rw [mul_mod_eq ha hb]; exact Nat.mod_lt _ P_pos

theorem add_mod_eq {a b : Nat} (ha : a < P) (hb : b < P) :
    add_mod a b = (a + b) % P := by
  simp only [add_mod]
  unfold P at *
  split_ifs <;> omega

theorem add_mod_lt {a b : Nat} (ha : a < P) (hb : b < P) :
    add_mod a b < P := by
  rw [add_mod_eq ha hb]; exact Nat.mod_lt _ P_pos

theorem sub_mod_eq {a b : Nat} (ha : a < P) (hb : b < P) :
    sub_mod a b = (a + P - b) % P := by
  simp only [sub_mod]
  unfold P at *
  split_ifs <;> omega

theorem sub_mod_lt {a b : Nat} (ha : a < P) (hb : b < P) :
    sub_mod a b < P := by
  rw [sub_mod_eq ha hb]; exact Nat.mod_lt _ P_pos

theorem sub_mod_zero_lt {a : Nat} (ha : a < P) : sub_mod 0 a < P :=
  sub_mod_lt P_pos ha

theorem sub_mod_zero_eq {a : Nat} (ha : a < P) : sub_mod 0 a = (P - a) % P := by
  simp only [sub_mod]
  unfold P at *
  split_ifs <;> omega

theorem sub_mod_zero_invol {a : Nat} (ha : a < P) :
    sub_mod 0 (sub_mod 0 a) = a := by
  simp only [sub_mod]
  unfold P at *
  split_ifs <;> omega

theorem add_mod_neg_self {a : Nat} (ha : a < P) :
    add_mod a (sub_mod 0 a) = 0 := by
  simp only [add_mod, sub_mod]
  unfold P at *
  split_ifs <;> omega

theorem add_mod_self_eq_zero {a : Nat} (ha : a < P) :
    add_mod a a = 0 ↔ a = 0 := by
  simp only [add_mod]
  unfold P at *
  split_ifs <;> omega


/-!  GF(p²) multiplication laws, via transport to `ZMod P`  -/

theorem P_lt_two_pow_32 : P < 2 ^ 32 := by unfold P; omega

theorem reduced_valid32 {v : GFp2} (h : reduced v) : valid32 v :=
  ⟨lt_trans h.1 P_lt_two_pow_32, lt_trans h.2 P_lt_two_pow_32⟩

theorem mul_gfp2_reduced {x y : GFp2} (hx : valid32 x) (hy : valid32 y) :
    reduced (mul_gfp2 x y) := by
  obtain ⟨hxa, hxb⟩ := hx
  obtain ⟨hya, hyb⟩ := hy
  have h1 := mul_mod_lt hxa hya
  have h2 := mul_mod_lt hxb hyb
  have h3 := mul_mod_lt hxa hyb
  have h4 := mul_mod_lt hxb hya
  exact ⟨add_mod_lt h1 h2, add_mod_lt (add_mod_lt h3 h4) h2⟩

theorem toZP_mul {x y : GFp2} (hx : valid32 x) (hy : valid32 y) :
    toZP (mul_gfp2 x y) = zmul (toZP x) (toZP y) := by
  obtain ⟨hxa, hxb⟩ := hx
  obtain ⟨hya, hyb⟩ := hy
  have h1 := mul_mod_lt hxa hya
  have h2 := mul_mod_lt hxb hyb
  have h3 := mul_mod_lt hxa hyb
  have h4 := mul_mod_lt hxb hya
  unfold toZP zmul mul_gfp2
  dsimp only
  rw [add_mod_eq h1 h2, add_mod_eq (add_mod_lt h3 h4) h2, add_mod_eq h3 h4,
    mul_mod_eq hxa hya, mul_mod_eq hxb hyb, mul_mod_eq hxa hyb,
    mul_mod_eq hxb hya]
  simp only [Prod.mk.injEq]
  constructor <;>
    · push_cast [ZMod.natCast_mod]
      ring

theorem toZP_inj {x y : GFp2} (hx : reduced x) (hy : reduced y)
    (h : toZP x = toZP y) : x = y := by
  have h1 : (x.a : ZMod P) = (y.a : ZMod P) := congrArg Prod.fst h
  have h2 : (x.b : ZMod P) = (y.b : ZMod P) := congrArg Prod.snd h
  have ea : x.a = y.a := by
    have hv := congrArg ZMod.val h1
    rwa [ZMod.val_cast_of_lt hx.1, ZMod.val_cast_of_lt hy.1] at hv
  have eb : x.b = y.b := by
    have hv := congrArg ZMod.val h2
    rwa [ZMod.val_cast_of_lt hx.2, ZMod.val_cast_of_lt hy.2] at hv
  cases x; cases y
  simp_all

theorem one_reduced : reduced (GFp2.mk 1 0) := by decide

theorem mul_one_red {v : GFp2} (hv : reduced v) :
    mul_gfp2 v (GFp2.mk 1 0) = v := by
  apply toZP_inj (mul_gfp2_reduced (reduced_valid32 hv)
    (reduced_valid32 one_reduced)) hv
  rw [toZP_mul (reduced_valid32 hv) (reduced_valid32 one_reduced)]
  simp only [toZP, zmul, Prod.mk.injEq]
  push_cast
  constructor <;> ring

theorem one_mul_red {v : GFp2} (hv : reduced v) :
    mul_gfp2 (GFp2.mk 1 0) v = v := by
  apply toZP_inj (mul_gfp2_reduced (reduced_valid32 one_reduced)
    (reduced_valid32 hv)) hv
  rw [toZP_mul (reduced_valid32 one_reduced) (reduced_valid32 hv)]
  simp only [toZP, zmul, Prod.mk.injEq]
  push_cast
  constructor <;> ring

theorem mul_assoc_red {x y z : GFp2} (hx : reduced x) (hy : reduced y)
    (hz : reduced z) :
    mul_gfp2 (mul_gfp2 x y) z = mul_gfp2 x (mul_gfp2 y z) := by
  have hxy := mul_gfp2_reduced (reduced_valid32 hx) (reduced_valid32 hy)
  have hyz := mul_gfp2_reduced (reduced_valid32 hy) (reduced_valid32 hz)
  apply toZP_inj
    (mul_gfp2_reduced (reduced_valid32 hxy) (reduced_valid32 hz))
    (mul_gfp2_reduced (reduced_valid32 hx) (reduced_valid32 hyz))
  rw [toZP_mul (reduced_valid32 hxy) (reduced_valid32 hz),
    toZP_mul (reduced_valid32 hx) (reduced_valid32 hy),
    toZP_mul (reduced_valid32 hx) (reduced_valid32 hyz),
    toZP_mul (reduced_valid32 hy) (reduced_valid32 hz)]
  simp only [zmul, Prod.mk.injEq]
  constructor <;> ring

theorem gpow_reduced {c : GFp2} (hc : reduced c) : ∀ n, reduced (gpow c n)
  | 0 => one_reduced
  | n + 1 =>
    mul_gfp2_reduced (reduced_valid32 hc)
      (reduced_valid32 (gpow_reduced hc n))

theorem gpow_add {c : GFp2} (hc : reduced c) (m n : Nat) :
    gpow c (m + n) = mul_gfp2 (gpow c m) (gpow c n) := by
  induction m with
  | zero =>
    rw [Nat.zero_add, gpow, one_mul_red (gpow_reduced hc n)]
  | succ m ih =>
    have h : m + 1 + n = (m + n) + 1 := by omega
    rw [h, gpow, ih, gpow,
      ← mul_assoc_red hc (gpow_reduced hc m) (gpow_reduced hc n)]

theorem gpow_two_mul {c : GFp2} (hc : reduced c) (m : Nat) :
    gpow c (2 * m) = gpow (mul_gfp2 c c) m := by
  induction m with
  | zero => rfl
  | succ m ih =>
    have h2m : reduced (gpow c (2 * m)) := gpow_reduced hc (2 * m)
    have h : 2 * (m + 1) = (2 * m + 1) + 1 := by omega
    rw [h, gpow, gpow, ih, gpow, ← ih,
      ← mul_assoc_red hc hc h2m, ih]

theorem sqn_eq_gpow {x : GFp2} (hx : reduced x) :
    ∀ n, sqn x n = gpow x (2 ^ n) := by
  intro n
  induction n generalizing x with
  | zero =>
    show x = gpow x 1
    rw [show (1 : Nat) = 0 + 1 from rfl, gpow, gpow, mul_one_red hx]
  | succ n ih =>
    have hxx := mul_gfp2_reduced (reduced_valid32 hx) (reduced_valid32 hx)
    show sqn (mul_gfp2 x x) n = gpow x (2 ^ (n + 1))
    rw [ih hxx, ← gpow_two_mul hx, show 2 * 2 ^ n = 2 ^ (n + 1) by
      rw [Nat.pow_succ, Nat.mul_comm]]

set_option maxRecDepth 8192 in
/-- φ = (0, 1) has multiplicative order dividing 2^32 in GF(p²). -/
theorem phi_pow_two_pow_32 : gpow (GFp2.mk 0 1) (2 ^ 32) = GFp2.mk 1 0 := by
  rw [← sqn_eq_gpow (by decide) 32]
  decide

/-!  Correctness of the branchless exponentiation loop  -/

theorem expStep_select {e i : Nat} {r c : GFp2} (hr : reduced r)
    (hc : reduced c) :
    expStep e i r c =
      ((if (e >>> i) % 2 = 1 then mul_gfp2 r c else r), mul_gfp2 c c) := by
  have htemp := mul_gfp2_reduced (reduced_valid32 hr) (reduced_valid32 hc)
  have hra : r.a < 2 ^ 32 := lt_trans hr.1 P_lt_two_pow_32
  have hrb : r.b < 2 ^ 32 := lt_trans hr.2 P_lt_two_pow_32
  have hta : (mul_gfp2 r c).a < 2 ^ 32 := lt_trans htemp.1 P_lt_two_pow_32
  have htb : (mul_gfp2 r c).b < 2 ^ 32 := lt_trans htemp.2 P_lt_two_pow_32
  unfold expStep
  dsimp only
  rw [Nat.and_one_is_mod]
  rcases Nat.mod_two_eq_zero_or_one (e >>> i) with h | h <;> rw [h]
  · have hmask : (2 ^ 32 - 0) % 2 ^ 32 = 0 := by omega
    have hnot : not32 0 = 2 ^ 32 - 1 := by unfold not32; omega
    rw [hmask, hnot]
    have sel : ∀ z : Nat, z < 2 ^ 32 →
        ((2 ^ 32 - 1) &&& z) ||| (0 &&& z) = z := by
      intro z hz
      rw [Nat.zero_and, Nat.or_zero, Nat.and_comm,
        Nat.and_pow_two_sub_one_eq_mod, Nat.mod_eq_of_lt hz]
    simp only [Nat.zero_and, Nat.or_zero]
    rw [Nat.and_comm _ r.a, Nat.and_pow_two_sub_one_eq_mod,
      Nat.mod_eq_of_lt hra, Nat.and_comm _ r.b,
      Nat.and_pow_two_sub_one_eq_mod, Nat.mod_eq_of_lt hrb]
    simp
  · have hmask : (2 ^ 32 - 1) % 2 ^ 32 = 2 ^ 32 - 1 := by omega
    have hnot : not32 (2 ^ 32 - 1) = 0 := by unfold not32; omega
    rw [hmask, hnot]
    simp only [Nat.zero_and, Nat.zero_or]
    rw [Nat.and_comm _ (mul_gfp2 r c).a, Nat.and_pow_two_sub_one_eq_mod,
      Nat.mod_eq_of_lt hta, Nat.and_comm _ (mul_gfp2 r c).b,
      Nat.and_pow_two_sub_one_eq_mod, Nat.mod_eq_of_lt htb]
    simp

theorem expIter_eq_gpow (e : Nat) :
    ∀ f i (r c : GFp2), reduced r → reduced c →
      expIter e i f r c = mul_gfp2 r (gpow c ((e >>> i) % 2 ^ f)) := by
  intro f
  induction f with
  | zero =>
    intro i r c hr _
    show r = mul_gfp2 r (gpow c ((e >>> i) % 1))
    rw [Nat.mod_one]
    exact (mul_one_red hr).symm
  | succ f ih =>
    intro i r c hr hc
    have hcc := mul_gfp2_reduced (reduced_valid32 hc) (reduced_valid32 hc)
    have hrc := mul_gfp2_reduced (reduced_valid32 hr) (reduced_valid32 hc)
    have hsplit : (e >>> i) % 2 ^ (f + 1) =
        (e >>> i) % 2 + 2 * ((e >>> (i + 1)) % 2 ^ f) := by
      rw [Nat.shiftRight_succ, Nat.pow_succ, Nat.mul_comm (2 ^ f) 2,
        Nat.mod_mul]
    show expIter e (i + 1) f (expStep e i r c).1 (expStep e i r c).2 =
      mul_gfp2 r (gpow c ((e >>> i) % 2 ^ (f + 1)))
    rw [expStep_select hr hc, hsplit]
    dsimp only
    by_cases h : (e >>> i) % 2 = 1
    · rw [if_pos h, h,
        ih (i + 1) (mul_gfp2 r c) (mul_gfp2 c c) hrc hcc]
      have hg : gpow c (1 + 2 * ((e >>> (i + 1)) % 2 ^ f)) =
          mul_gfp2 c (gpow (mul_gfp2 c c) ((e >>> (i + 1)) % 2 ^ f)) := by
        rw [show 1 + 2 * ((e >>> (i + 1)) % 2 ^ f) =
            2 * ((e >>> (i + 1)) % 2 ^ f) + 1 by omega,
          gpow, gpow_two_mul hc]
      rw [hg, ← mul_assoc_red hr hc (gpow_reduced hcc _)]
    · have h0 : (e >>> i) % 2 = 0 := by omega
      rw [if_neg h, h0,
        ih (i + 1) r (mul_gfp2 c c) hr hcc, Nat.zero_add, gpow_two_mul hc]

theorem bitLenAux_complete : ∀ f n, n < 2 ^ f → n < 2 ^ bitLenAux f n := by
  intro f
  induction f with
  | zero => intro n h; unfold bitLenAux; omega
  | succ f ih =>
    intro n h
    by_cases hn : n = 0
    · subst hn; unfold bitLenAux; simp
    · have hdiv : n / 2 < 2 ^ f := by
        rw [Nat.div_lt_iff_lt_mul (by omega)]
        rw [Nat.pow_succ] at h
        omega
      have hrec := ih (n / 2) hdiv
      show n < 2 ^ (if n = 0 then 0 else bitLenAux f (n / 2) + 1)
      rw [if_neg hn, Nat.pow_succ]
      omega

theorem two_pow_32_lt_GROUP_ORDER : 2 ^ 32 < GROUP_ORDER := by
  rw [GROUP_ORDER_eq]; omega

theorem exp_phi_eq_gpow {base : GFp2} {e : Nat} (hb : reduced base)
    (he : e < 2 ^ 32) : exp_phi base e = gpow base e := by
  unfold exp_phi
  have h1 : e % GROUP_ORDER = e :=
    Nat.mod_eq_of_lt (lt_trans he two_pow_32_lt_GROUP_ORDER)
  have h2 : e % 2 ^ 32 = e := Nat.mod_eq_of_lt he
  rw [h1, h2]
  rw [expIter_eq_gpow e (bits32 e) 0 (GFp2.mk 1 0) base one_reduced hb]
  unfold bits32
  rw [Nat.shiftRight_zero,
    Nat.mod_eq_of_lt (bitLenAux_complete 32 e he),
    one_mul_red (gpow_reduced hb e)]

theorem negative_exponent_eq {k : Nat} (hk : k < 2 ^ 32) :
    negative_exponent k = (2 ^ 32 - k) % 2 ^ 32 := by
  have hdef : negative_exponent k =
      ((GROUP_ORDER - (k % GROUP_ORDER) % 2 ^ 32) % GROUP_ORDER) % 2 ^ 32 :=
    rfl
  have hkg : k % GROUP_ORDER = k :=
    Nat.mod_eq_of_lt (lt_trans hk two_pow_32_lt_GROUP_ORDER)
  rw [hdef, hkg, Nat.mod_eq_of_lt hk, GROUP_ORDER_eq]
  rcases Nat.eq_zero_or_pos k with h0 | hpos
  · subst h0; norm_num
  · have hlt : (4611686014132420608 - k) % 4611686014132420608 =
        4611686014132420608 - k := Nat.mod_eq_of_lt (by omega)
    rw [hlt]
    omega

theorem negative_exponent_lt {k : Nat} : negative_exponent k < 2 ^ 32 := by
  unfold negative_exponent
  exact Nat.mod_lt _ (by omega)

/-- The standing inverse-law invariant: φᵏ ⊙ φ⁻ᵏ = (1, 0) for every u32 key. -/
theorem phi_inverse_law {k : Nat} (hk : k < 2 ^ 32) :
    mul_gfp2 (exp_phi (GFp2.mk 0 1) k) (exp_phi_inverse (GFp2.mk 0 1) k) =
      GFp2.mk 1 0 := by
  have hphi : reduced (GFp2.mk 0 1) := by decide
  unfold exp_phi_inverse
  rw [exp_phi_eq_gpow hphi hk, exp_phi_eq_gpow hphi negative_exponent_lt,
    negative_exponent_eq hk]
  rcases Nat.eq_zero_or_pos k with h0 | hpos
  · subst h0
    norm_num
    exact mul_one_red one_reduced
  · have hne : (2 ^ 32 - k) % 2 ^ 32 = 2 ^ 32 - k :=
      Nat.mod_eq_of_lt (by omega)
    rw [hne, ← gpow_add hphi, show k + (2 ^ 32 - k) = 2 ^ 32 by omega]
    exact phi_pow_two_pow_32

/-!  Haar pass lemmas  -/

theorem get_chunk_size_eq {cpus : Nat} (h : 1 ≤ cpus) :
    get_chunk_size cpus = 262144 := by
  have h2 : 256 * 1024 * 1 ≤ 256 * 1024 * cpus := Nat.mul_le_mul_left _ h
  show (if (if (256 * 1024 : Nat) ≤ 256 * 1024 * cpus
            then (256 * 1024 : Nat) else 256 * 1024 * cpus) ≤ 4 * 1024
        then (4 * 1024 : Nat)
        else if (256 * 1024 : Nat) ≤ 256 * 1024 * cpus
             then (256 * 1024 : Nat) else 256 * 1024 * cpus) = 262144
  split_ifs <;> omega

theorem haarAux_eq_global {cs : Nat} (hcs2 : cs % 2 = 0) (hcs : 0 < cs) :
    ∀ (l : List GFp2) (i g : Nat), i < cs → i % 2 = g % 2 →
      haarAux cs i l = haarGlobal g l := by
  intro l
  induction l with
  | nil => intro i g _ _; rfl
  | cons v rest ih =>
    intro i g hi hp
    show (if i % 2 = 1 then gneg v else v) ::
        haarAux cs (if i + 1 = cs then 0 else i + 1) rest =
      (if g % 2 = 1 then gneg v else v) :: haarGlobal (g + 1) rest
    rw [hp]
    congr 1
    by_cases hreset : i + 1 = cs
    · rw [if_pos hreset]
      exact ih 0 (g + 1) hcs (by omega)
    · rw [if_neg hreset]
      exact ih (i + 1) (g + 1) (by omega) (by omega)

theorem binary_haar_transform_global {cpus : Nat} (h : 1 ≤ cpus)
    (l : List GFp2) :
    binary_haar_transform (get_chunk_size cpus) l = haarGlobal 0 l := by
  unfold binary_haar_transform
  rw [get_chunk_size_eq h]
  exact haarAux_eq_global (by norm_num) (by norm_num) l 0 0 (by norm_num) rfl

theorem gneg_reduced {v : GFp2} (hv : reduced v) : reduced (gneg v) :=
  ⟨sub_mod_zero_lt hv.1, sub_mod_zero_lt hv.2⟩

theorem gneg_eq_spec {v : GFp2} (hv : reduced v) : gneg v = gnegSpec v := by
  unfold gneg gnegSpec
  rw [sub_mod_zero_eq hv.1, sub_mod_zero_eq hv.2]

theorem haarGlobal_eq_spec :
    ∀ (l : List GFp2) (g : Nat), (∀ v ∈ l, reduced v) →
      haarGlobal g l = haarSpecGlobal g l := by
  intro l
  induction l with
  | nil => intro g _; rfl
  | cons v rest ih =>
    intro g hl
    show (if g % 2 = 1 then gneg v else v) :: haarGlobal (g + 1) rest =
      (if g % 2 = 1 then gnegSpec v else v) :: haarSpecGlobal (g + 1) rest
    have hv : reduced v := hl v (List.mem_cons_self v rest)
    rw [gneg_eq_spec hv, ih (g + 1) (fun w hw => hl w (List.mem_cons_of_mem v hw))]

theorem haarAux_reduced (cs : Nat) :
    ∀ (l : List GFp2) (i : Nat), (∀ v ∈ l, reduced v) →
      ∀ w ∈ haarAux cs i l, reduced w := by
  intro l
  induction l with
  | nil => intro i _ w hw; cases hw
  | cons v rest ih =>
    intro i hl w hw
    have hv : reduced v := hl v (List.mem_cons_self v rest)
    rcases List.mem_cons.mp hw with h | h
    · subst h
      by_cases hp : i % 2 = 1
      · rw [if_pos hp]; exact gneg_reduced hv
      · rw [if_neg hp]; exact hv
    · exact ih _ (fun u hu => hl u (List.mem_cons_of_mem v hu)) w h

theorem haarGlobal_reduced :
    ∀ (l : List GFp2) (g : Nat), (∀ v ∈ l, reduced v) →
      ∀ w ∈ haarGlobal g l, reduced w := by
  intro l
  induction l with
  | nil => intro g _ w hw; cases hw
  | cons v rest ih =>
    intro g hl w hw
    have hv : reduced v := hl v (List.mem_cons_self v rest)
    rcases List.mem_cons.mp hw with h | h
    · subst h
      by_cases hp : g % 2 = 1
      · rw [if_pos hp]; exact gneg_reduced hv
      · rw [if_neg hp]; exact hv
    · exact ih _ (fun u hu => hl u (List.mem_cons_of_mem v hu)) w h

theorem apply_phi_snd_of_ne {l : List GFp2} {f : GFp2} (h : l ≠ []) :
    (apply_phi_transform l f).2 = l.map (fun v => mul_gfp2 v f) := by
  unfold apply_phi_transform
  rw [if_neg (by simpa [List.isEmpty_iff] using h)]

/-!  Reconstruction round trip  -/

theorem exp_phi_reduced {base : GFp2} {e : Nat} (hb : reduced base)
    (he : e < 2 ^ 32) : reduced (exp_phi base e) := by
  rw [exp_phi_eq_gpow hb he]
  exact gpow_reduced hb e

theorem to_gfp2_reduced (b : Nat) : reduced (to_gfp2 b) :=
  ⟨Nat.mod_lt _ P_pos, P_pos⟩

theorem to_gfp2_lt {b : Nat} (hb : b < P) : to_gfp2 b = GFp2.mk b 0 := by
  unfold to_gfp2
  rw [Nat.mod_eq_of_lt hb]

theorem sub_mod_zero_zero : sub_mod 0 0 = 0 := by decide

theorem byte_lt_P {b : Nat} (hb : b < 128) : b < P := by unfold P at *; omega

theorem roundtrip_aux {phik phink : GFp2} (hk : reduced phik)
    (hnk : reduced phink) (hinv : mul_gfp2 phik phink = GFp2.mk 1 0) :
    ∀ (bytes : List Nat) (g : Nat), (∀ b ∈ bytes, b < 128) →
      reconstructAux g
        (List.map (fun v => mul_gfp2 v phink)
          (List.map (fun v => mul_gfp2 v phik)
            (haarGlobal g (bytes.map to_gfp2)))) = bytes := by
  intro bytes
  induction bytes with
  | nil => intro g _; rfl
  | cons b rest ih =>
    intro g hb
    have hbl : b < 128 := hb b (List.mem_cons_self b rest)
    have hbP : b < P := byte_lt_P hbl
    have hcancel : ∀ v : GFp2, reduced v →
        mul_gfp2 (mul_gfp2 v phik) phink = v := by
      intro v hv
      rw [mul_assoc_red hv hk hnk, hinv, mul_one_red hv]
    have hrest := ih (g + 1) (fun u hu => hb u (List.mem_cons_of_mem b hu))
    simp only [List.map_cons, haarGlobal, List.map_cons, reconstructAux]
    rw [to_gfp2_lt hbP]
    by_cases hg : g % 2 = 1
    · rw [if_pos hg]
      have hneg : gneg (GFp2.mk b 0) = GFp2.mk (sub_mod 0 b) 0 := by
        unfold gneg
        rw [sub_mod_zero_zero]
      have hred : reduced (GFp2.mk (sub_mod 0 b) 0) := ⟨sub_mod_zero_lt hbP, P_pos⟩
      rw [hneg, hcancel _ hred]
      dsimp only
      rw [if_pos rfl, if_pos hg, sub_mod_zero_invol hbP, if_pos hbl, hrest]
      rfl
    · rw [if_neg hg]
      have hred : reduced (GFp2.mk b 0) := ⟨hbP, P_pos⟩
      rw [hcancel _ hred]
      dsimp only
      rw [if_pos rfl, if_neg hg, if_pos hbl, hrest]
      rfl

/-!  Claim theorems  -/

/-- C1: for every all-ASCII input (every byte < 128) and every u32 key — in
particular key 0xDEADBEEF with the 12 bytes of "Test message" —
`reconstruct` applied to the result of `process_data` returns exactly the
original text (modelled as its list of ASCII byte values). -/
theorem C1_round_trip {cpus key : Nat} (hc : 1 ≤ cpus) (hkey : key < 2 ^ 32)
    (bytes : List Nat) (hb : ∀ b ∈ bytes, b < 128) :
    (ForeSystem.new key).reconstruct
      ((ForeSystem.new key).process_data (get_chunk_size cpus) bytes) =
      bytes := by
  have hphi : reduced (GFp2.mk PHI_A PHI_B) := by decide
  have hk : reduced (ForeSystem.new key).phi_k := exp_phi_reduced hphi hkey
  have hnk : reduced (ForeSystem.new key).phi_neg_k :=
    exp_phi_reduced hphi negative_exponent_lt
  have hinv : mul_gfp2 (ForeSystem.new key).phi_k
      (ForeSystem.new key).phi_neg_k = GFp2.mk 1 0 := phi_inverse_law hkey
  cases bytes with
  | nil => rfl
  | cons b rest =>
    show (ForeSystem.new key).reconstruct
        ((apply_phi_transform
          (binary_haar_transform (get_chunk_size cpus)
            ((b :: rest).map to_gfp2))
          (ForeSystem.new key).phi_k).2) = b :: rest
    rw [binary_haar_transform_global hc]
    have hne1 : haarGlobal 0 ((b :: rest).map to_gfp2) ≠ [] := by
      simp [haarGlobal, List.map_cons]
    rw [apply_phi_snd_of_ne hne1]
    show reconstructAux 0 (apply_phi_transform _ _).2 = b :: rest
    rw [apply_phi_snd_of_ne (by simp [haarGlobal])]
    exact roundtrip_aux hk hnk hinv (b :: rest) 0 hb

/-- Witness for C1: key 0xDEADBEEF and the 12 ASCII bytes of
"Test message". -/
theorem C1_round_trip_witness :
    ((1 : Nat) ≤ 1 ∧ (3735928559 : Nat) < 2 ^ 32 ∧
      ∀ b ∈ [84, 101, 115, 116, 32, 109, 101, 115, 115, 97, 103, 101],
        b < 128) ∧
    (ForeSystem.new 3735928559).reconstruct
      ((ForeSystem.new 3735928559).process_data (get_chunk_size 1)
        [84, 101, 115, 116, 32, 109, 101, 115, 115, 97, 103, 101]) =
      [84, 101, 115, 116, 32, 109, 101, 115, 115, 97, 103, 101] :=
  ⟨⟨by decide, by decide, by decide⟩,
   C1_round_trip (by decide) (by decide) _ (by decide)⟩

/-- C2: for every u32 key k, `mul_gfp2 (exp_phi φ k) (exp_phi_inverse φ k)`
is the field identity (1, 0); equivalently the two elements stored by
`ForeSystem.new k` multiply to (1, 0). -/
theorem C2_inverse_law (k : Nat) (hk : k < 2 ^ 32) :
    mul_gfp2 (exp_phi (GFp2.mk PHI_A PHI_B) k)
        (exp_phi_inverse (GFp2.mk PHI_A PHI_B) k) = GFp2.mk 1 0 ∧
    mul_gfp2 (ForeSystem.new k).phi_k (ForeSystem.new k).phi_neg_k =
      GFp2.mk 1 0 :=
  ⟨phi_inverse_law hk, phi_inverse_law hk⟩

/-- Witness for C2 at key 0xDEADBEEF. -/
theorem C2_inverse_law_witness :
    (3735928559 : Nat) < 2 ^ 32 ∧
    mul_gfp2 (exp_phi (GFp2.mk PHI_A PHI_B) 3735928559)
        (exp_phi_inverse (GFp2.mk PHI_A PHI_B) 3735928559) = GFp2.mk 1 0 ∧
    mul_gfp2 (ForeSystem.new 3735928559).phi_k
        (ForeSystem.new 3735928559).phi_neg_k = GFp2.mk 1 0 :=
  ⟨by decide, (C2_inverse_law 3735928559 (by decide)).1,
    (C2_inverse_law 3735928559 (by decide)).2⟩

/-- C4: for every 64-bit x, `modp x` is fully reduced (< p) and congruent to
x modulo p. -/
theorem C4_modp_reduction (x : Nat) (hx : x < 2 ^ 64) :
    modp x < P ∧ modp x % P = x % P := by
  refine ⟨modp_lt hx, ?_⟩
  rw [modp_eq hx]
  unfold P
  omega

/-- Witness for C4 at x = 2^63 + 12345. -/
theorem C4_modp_reduction_witness :
    (2 ^ 63 + 12345 : Nat) < 2 ^ 64 ∧
    (modp (2 ^ 63 + 12345) < P ∧
      modp (2 ^ 63 + 12345) % P = (2 ^ 63 + 12345) % P) :=
  ⟨by norm_num, C4_modp_reduction (2 ^ 63 + 12345) (by norm_num)⟩

/-- C5: for the chunk size the code actually uses (any cpu count ≥ 1) and
any sequence of reduced field elements, the Haar pass negates exactly the
elements at odd global index, mapping (a, b) to ((p−a) mod p, (p−b) mod p),
and leaves even global indices unchanged. -/
theorem C5_haar_global_parity {cpus : Nat} (hc : 1 ≤ cpus) (l : List GFp2)
    (hl : ∀ v ∈ l, reduced v) :
    binary_haar_transform (get_chunk_size cpus) l = haarSpecGlobal 0 l := by
  rw [binary_haar_transform_global hc l, haarGlobal_eq_spec l 0 hl]

/-- Witness for C5 on a concrete two-element sequence. -/
theorem C5_haar_global_parity_witness :
    ((1 : Nat) ≤ 1 ∧ ∀ v ∈ [GFp2.mk 1 2, GFp2.mk 3 4], reduced v) ∧
    binary_haar_transform (get_chunk_size 1) [GFp2.mk 1 2, GFp2.mk 3 4] =
      haarSpecGlobal 0 [GFp2.mk 1 2, GFp2.mk 3 4] :=
  ⟨⟨by decide, by decide⟩,
    C5_haar_global_parity (by decide) [GFp2.mk 1 2, GFp2.mk 3 4] (by decide)⟩

/-!  C3: what exp_phi_inverse actually computes  -/

theorem add_mod_zero_right {a : Nat} (ha : a < P) : add_mod a 0 = a := by
  rw [add_mod_eq ha P_pos, Nat.add_zero, Nat.mod_eq_of_lt ha]

theorem mul_mod_zero_left (b : Nat) (hb : b < 2 ^ 32) : mul_mod 0 b = 0 := by
  rw [mul_mod_eq (by norm_num) hb, Nat.zero_mul, Nat.zero_mod]

theorem mul_mod_zero_right (a : Nat) (ha : a < 2 ^ 32) : mul_mod a 0 = 0 := by
  rw [mul_mod_eq ha (by norm_num), Nat.mul_zero, Nat.zero_mod]

theorem gpow_scalar {c : Nat} (hc : c < P) :
    ∀ n, gpow (GFp2.mk c 0) n = GFp2.mk (c ^ n % P) 0 := by
  intro n
  have hc32 : c < 2 ^ 32 := lt_trans hc P_lt_two_pow_32
  induction n with
  | zero =>
    show GFp2.mk 1 0 = GFp2.mk (c ^ 0 % P) 0
    rw [Nat.pow_zero, Nat.mod_eq_of_lt (by unfold P; omega)]
  | succ n ih =>
    show mul_gfp2 (GFp2.mk c 0) (gpow (GFp2.mk c 0) n) = GFp2.mk (c ^ (n + 1) % P) 0
    rw [ih]
    have hpow : c ^ n % P < 2 ^ 32 :=
      lt_trans (Nat.mod_lt _ P_pos) P_lt_two_pow_32
    unfold mul_gfp2
    dsimp only
    rw [mul_mod_zero_left _ hpow, mul_mod_zero_right _ hc32,
      mul_mod_zero_right _ (by norm_num : (0 : Nat) < 2 ^ 32)]
    rw [add_mod_zero_right (mul_mod_lt hc32 hpow),
      add_mod_zero_right P_pos, add_mod_zero_right P_pos]
    rw [mul_mod_eq hc32 hpow, Nat.mul_mod, Nat.mod_mod_of_dvd _ dvd_rfl,
      ← Nat.mul_mod, ← Nat.pow_succ']

theorem two_pow_GO_sub_one_mod_P :
    2 ^ (GROUP_ORDER - 1) % P = 1073741824 := by
  have key : ∀ q : Nat, 2 ^ (31 * q + 30) % P = 1073741824 := by
    intro q
    rw [Nat.pow_add, Nat.pow_mul, Nat.mul_mod, Nat.pow_mod]
    norm_num [P]
  have hq : GROUP_ORDER - 1 = 31 * 148764064972013567 + 30 := by
    rw [GROUP_ORDER_eq]
  rw [hq]
  exact key 148764064972013567

set_option maxRecDepth 8192 in
/-- C3 counterexample: for base (2, 0) and k = 1, `exp_phi_inverse` does not
return base^((group_order − (k mod group_order)) mod group_order): the code
yields (8, 0) = 2^((2^32 − 1) mod 31) while the claim demands
2^(group_order − 1) = 2⁻¹ = (2^30, 0). -/
theorem C3_counterexample :
    exp_phi_inverse (GFp2.mk 2 0) 1 ≠
      gpow (GFp2.mk 2 0) ((GROUP_ORDER - 1 % GROUP_ORDER) % GROUP_ORDER) := by
  have h1 : exp_phi_inverse (GFp2.mk 2 0) 1 = GFp2.mk 8 0 := by decide
  have h2 : (GROUP_ORDER - 1 % GROUP_ORDER) % GROUP_ORDER = GROUP_ORDER - 1 := by
    rw [GROUP_ORDER_eq]
  have h3 : gpow (GFp2.mk 2 0) (GROUP_ORDER - 1) = GFp2.mk 1073741824 0 := by
    rw [gpow_scalar (by norm_num [P]) (GROUP_ORDER - 1),
      two_pow_GO_sub_one_mod_P]
  rw [h1, h2, h3]
  decide

/-- C3 amended: `exp_phi_inverse base k` equals base raised to the power
((group_order − (k mod group_order)) mod group_order) **truncated to 32
bits**, i.e. base^((2^32 − k) mod 2^32); this is the multiplicative inverse
power for the fixed base φ (whose order divides 2^32) but not for every
non-zero base. -/
theorem C3_amended {base : GFp2} {k : Nat} (hb : reduced base)
    (hk : k < 2 ^ 32) :
    exp_phi_inverse base k = gpow base ((2 ^ 32 - k) % 2 ^ 32) := by
  unfold exp_phi_inverse
  rw [negative_exponent_eq hk,
    exp_phi_eq_gpow hb (Nat.mod_lt _ (by norm_num))]

/-- Witness for the amended C3 at base (2, 0), k = 1. -/
theorem C3_amended_witness :
    (reduced (GFp2.mk 2 0) ∧ (1 : Nat) < 2 ^ 32) ∧
    exp_phi_inverse (GFp2.mk 2 0) 1 =
      gpow (GFp2.mk 2 0) ((2 ^ 32 - 1) % 2 ^ 32) :=
  ⟨⟨by decide, by decide⟩, C3_amended (by decide) (by decide)⟩

/-- C7: `edit_frequency` writes the φᵏ-transformed value at
`start = pos·2^level`, writes its field negation at `start + span/2` when
that is in bounds, is a silent no-op when `start` is out of bounds, and
after `edit_frequency(seq, level := 1, pos := 0, (5,0))` on a sequence of
length ≥ 4 the elements at indices 0 and 1 sum componentwise to (0, 0). -/
theorem C7_edit_frequency (s : ForeSystem) (data : List GFp2)
    (level pos : Nat) (nv : GFp2) :
    (pos * 2 ^ level < data.length →
      pos * 2 ^ level + 2 ^ level / 2 < data.length →
      s.edit_frequency data level pos nv =
        (data.set (pos * 2 ^ level) (mul_gfp2 nv s.phi_k)).set
          (pos * 2 ^ level + 2 ^ level / 2)
          (GFp2.mk (sub_mod 0 (mul_gfp2 nv s.phi_k).a)
            (sub_mod 0 (mul_gfp2 nv s.phi_k).b))) ∧
    (pos * 2 ^ level < data.length →
      ¬pos * 2 ^ level + 2 ^ level / 2 < data.length →
      s.edit_frequency data level pos nv =
        data.set (pos * 2 ^ level) (mul_gfp2 nv s.phi_k)) ∧
    (data.length ≤ pos * 2 ^ level →
      s.edit_frequency data level pos nv = data) ∧
    (valid32 s.phi_k → 4 ≤ data.length →
      add_mod ((s.edit_frequency data 1 0 (GFp2.mk 5 0)).getD 0
            (GFp2.mk 0 0)).a
          ((s.edit_frequency data 1 0 (GFp2.mk 5 0)).getD 1
            (GFp2.mk 0 0)).a = 0 ∧
      add_mod ((s.edit_frequency data 1 0 (GFp2.mk 5 0)).getD 0
            (GFp2.mk 0 0)).b
          ((s.edit_frequency data 1 0 (GFp2.mk 5 0)).getD 1
            (GFp2.mk 0 0)).b = 0) := by
  refine ⟨?_, ?_, ?_, ?_⟩
  · intro h1 h2
    unfold ForeSystem.edit_frequency
    rw [if_pos h1, if_pos (by simpa using h2)]
  · intro h1 h2
    unfold ForeSystem.edit_frequency
    rw [if_pos h1, if_neg (by simpa using h2)]
  · intro h
    unfold ForeSystem.edit_frequency
    rw [if_neg (by omega)]
  · intro hphik hlen
    have ht : reduced (mul_gfp2 (GFp2.mk 5 0) s.phi_k) :=
      mul_gfp2_reduced (by constructor <;> norm_num) hphik
    have hedit : s.edit_frequency data 1 0 (GFp2.mk 5 0) =
        (data.set 0 (mul_gfp2 (GFp2.mk 5 0) s.phi_k)).set 1
          (GFp2.mk (sub_mod 0 (mul_gfp2 (GFp2.mk 5 0) s.phi_k).a)
            (sub_mod 0 (mul_gfp2 (GFp2.mk 5 0) s.phi_k).b)) := by
      unfold ForeSystem.edit_frequency
      rw [if_pos (by omega), if_pos (by simpa using by omega : _)]
      norm_num
    rw [hedit]
    have hg0 : ((data.set 0 (mul_gfp2 (GFp2.mk 5 0) s.phi_k)).set 1
        (GFp2.mk (sub_mod 0 (mul_gfp2 (GFp2.mk 5 0) s.phi_k).a)
          (sub_mod 0 (mul_gfp2 (GFp2.mk 5 0) s.phi_k).b))).getD 0
        (GFp2.mk 0 0) = mul_gfp2 (GFp2.mk 5 0) s.phi_k := by
      rw [List.getD_eq_getElem?_getD,
        List.getElem?_set_ne (by omega),
        List.getElem?_set_self (by omega)]
      rfl
    have hg1 : ((data.set 0 (mul_gfp2 (GFp2.mk 5 0) s.phi_k)).set 1
        (GFp2.mk (sub_mod 0 (mul_gfp2 (GFp2.mk 5 0) s.phi_k).a)
          (sub_mod 0 (mul_gfp2 (GFp2.mk 5 0) s.phi_k).b))).getD 1
        (GFp2.mk 0 0) =
        GFp2.mk (sub_mod 0 (mul_gfp2 (GFp2.mk 5 0) s.phi_k).a)
          (sub_mod 0 (mul_gfp2 (GFp2.mk 5 0) s.phi_k).b) := by
      rw [List.getD_eq_getElem?_getD,
        List.getElem?_set_self (by simp; omega)]
      rfl
    rw [hg0, hg1]
    exact ⟨add_mod_neg_self ht.1, add_mod_neg_self ht.2⟩

/-- Witness for C7 on a concrete system and sequence. -/
theorem C7_edit_frequency_witness :
    (valid32 (ForeSystem.new 1).phi_k ∧
      4 ≤ [GFp2.mk 1 1, GFp2.mk 2 2, GFp2.mk 3 3, GFp2.mk 4 4].length) ∧
    add_mod (((ForeSystem.new 1).edit_frequency
          [GFp2.mk 1 1, GFp2.mk 2 2, GFp2.mk 3 3, GFp2.mk 4 4] 1 0
          (GFp2.mk 5 0)).getD 0 (GFp2.mk 0 0)).a
        (((ForeSystem.new 1).edit_frequency
          [GFp2.mk 1 1, GFp2.mk 2 2, GFp2.mk 3 3, GFp2.mk 4 4] 1 0
          (GFp2.mk 5 0)).getD 1 (GFp2.mk 0 0)).a = 0 ∧
    add_mod (((ForeSystem.new 1).edit_frequency
          [GFp2.mk 1 1, GFp2.mk 2 2, GFp2.mk 3 3, GFp2.mk 4 4] 1 0
          (GFp2.mk 5 0)).getD 0 (GFp2.mk 0 0)).b
        (((ForeSystem.new 1).edit_frequency
          [GFp2.mk 1 1, GFp2.mk 2 2, GFp2.mk 3 3, GFp2.mk 4 4] 1 0
          (GFp2.mk 5 0)).getD 1 (GFp2.mk 0 0)).b = 0 :=
  ⟨⟨by decide, by decide⟩,
    ((C7_edit_frequency (ForeSystem.new 1)
      [GFp2.mk 1 1, GFp2.mk 2 2, GFp2.mk 3 3, GFp2.mk 4 4] 1 0
      (GFp2.mk 5 0)).2.2.2 (by decide) (by decide)).1,
    ((C7_edit_frequency (ForeSystem.new 1)
      [GFp2.mk 1 1, GFp2.mk 2 2, GFp2.mk 3 3, GFp2.mk 4 4] 1 0
      (GFp2.mk 5 0)).2.2.2 (by decide) (by decide)).2⟩

/-- C8: `apply_phi_transform` signals `none` exactly on the empty sequence
(and then changes nothing); on a non-empty sequence it returns `some ()` and
multiplies every element by the factor. -/
theorem C8_phi_empty_noop (data : List GFp2) (f : GFp2) :
    ((apply_phi_transform data f).1 = none ↔ data = []) ∧
    (data = [] → (apply_phi_transform data f).2 = data) ∧
    (data ≠ [] → (apply_phi_transform data f).1 = some () ∧
      (apply_phi_transform data f).2 =
        data.map (fun v => mul_gfp2 v f)) := by
  unfold apply_phi_transform
  by_cases h : data = []
  · subst h
    simp
  · rw [if_neg (by simpa [List.isEmpty_iff] using h)]
    simp [h]

/-- Witness for C8 on a one-element sequence. -/
theorem C8_phi_empty_noop_witness :
    ([GFp2.mk 1 2] ≠ ([] : List GFp2)) ∧
    ((apply_phi_transform [GFp2.mk 1 2] (GFp2.mk 3 4)).1 = some () ∧
      (apply_phi_transform [GFp2.mk 1 2] (GFp2.mk 3 4)).2 =
        [GFp2.mk 1 2].map (fun v => mul_gfp2 v (GFp2.mk 3 4))) :=
  ⟨by decide, (C8_phi_empty_noop [GFp2.mk 1 2] (GFp2.mk 3 4)).2.2 (by decide)⟩

/-- C10: at level 0 the paired-index write targets `start` itself, so
`edit_frequency` leaves the field negation of the transformed value at
index `pos`, not the transformed value. -/
theorem C10_edit_level_zero (s : ForeSystem) (data : List GFp2) (pos : Nat)
    (nv : GFp2) (h : pos < data.length) :
    (s.edit_frequency data 0 pos nv)[pos]? =
      some (GFp2.mk (sub_mod 0 (mul_gfp2 nv s.phi_k).a)
        (sub_mod 0 (mul_gfp2 nv s.phi_k).b)) := by
  simp only [ForeSystem.edit_frequency, List.length_set]
  norm_num [h]

/-- Witness for C10 on a concrete system and sequence. -/
theorem C10_edit_level_zero_witness :
    (0 : Nat) < [GFp2.mk 1 1, GFp2.mk 2 2].length ∧
    ((ForeSystem.new 1).edit_frequency [GFp2.mk 1 1, GFp2.mk 2 2] 0 0
        (GFp2.mk 3 4))[0]? =
      some (GFp2.mk (sub_mod 0 (mul_gfp2 (GFp2.mk 3 4)
          (ForeSystem.new 1).phi_k).a)
        (sub_mod 0 (mul_gfp2 (GFp2.mk 3 4) (ForeSystem.new 1).phi_k).b)) :=
  ⟨by decide, C10_edit_level_zero (ForeSystem.new 1) _ 0 (GFp2.mk 3 4)
    (by decide)⟩

/-!  C6 helper: phi pass and pipelines preserve reducedness  -/

theorem apply_phi_reduced {l : List GFp2} {f : GFp2} (hf : reduced f)
    (hl : ∀ v ∈ l, reduced v) :
    ∀ w ∈ (apply_phi_transform l f).2, reduced w := by
  intro w hw
  unfold apply_phi_transform at hw
  by_cases h : l.isEmpty
  · rw [if_pos h] at hw
    exact hl w hw
  · rw [if_neg h] at hw
    obtain ⟨v, hv, rfl⟩ := List.mem_map.mp hw
    exact mul_gfp2_reduced (reduced_valid32 (hl v hv)) (reduced_valid32 hf)

theorem to_frequency_domain_reduced {s : ForeSystem} {cs : Nat}
    {l : List GFp2} (hf : reduced s.phi_k) (hl : ∀ v ∈ l, reduced v) :
    ∀ w ∈ s.to_frequency_domain cs l, reduced w :=
  apply_phi_reduced hf (haarAux_reduced cs l 0 hl)

theorem edit_frequency_reduced {s : ForeSystem} {l : List GFp2}
    {level pos : Nat} {nv : GFp2} (hnv : valid32 nv)
    (hk : valid32 s.phi_k) (hl : ∀ v ∈ l, reduced v) :
    ∀ w ∈ s.edit_frequency l level pos nv, reduced w := by
  intro w hw
  have ht : reduced (mul_gfp2 nv s.phi_k) := mul_gfp2_reduced hnv hk
  have hneg : reduced (GFp2.mk (sub_mod 0 (mul_gfp2 nv s.phi_k).a)
      (sub_mod 0 (mul_gfp2 nv s.phi_k).b)) :=
    ⟨sub_mod_zero_lt ht.1, sub_mod_zero_lt ht.2⟩
  unfold ForeSystem.edit_frequency at hw
  by_cases h1 : pos * 2 ^ level < l.length
  · rw [if_pos h1] at hw
    by_cases h2 : pos * 2 ^ level + 2 ^ level / 2 <
        (l.set (pos * 2 ^ level) (mul_gfp2 nv s.phi_k)).length
    · rw [if_pos h2] at hw
      rcases List.mem_or_eq_of_mem_set hw with hw1 | hw1
      · rcases List.mem_or_eq_of_mem_set hw1 with hw2 | hw2
        · exact hl w hw2
        · exact hw2 ▸ ht
      · exact hw1 ▸ hneg
    · rw [if_neg h2] at hw
      rcases List.mem_or_eq_of_mem_set hw with hw1 | hw1
      · exact hl w hw1
      · exact hw1 ▸ ht
  · rw [if_neg h1] at hw
    exact hl w hw

/-- C6: every scalar operation returns a value in [0, p) on inputs in
[0, p); `mul_gfp2` and `exp_phi` return pairs with both components in
[0, p); `to_gfp2` lifts any u32 to (v mod p, 0); and the transform and
FrameSystem sequence operations preserve the fully-reduced invariant on
every element. -/
theorem C6_reduction_invariant :
    (∀ a b : Nat, a < P → b < P → add_mod a b < P) ∧
    (∀ a b : Nat, a < P → b < P → sub_mod a b < P) ∧
    (∀ a b : Nat, a < P → b < P → mul_mod a b < P) ∧
    (∀ x y : GFp2, reduced x → reduced y → reduced (mul_gfp2 x y)) ∧
    (∀ (base : GFp2) (e : Nat), reduced base → e < 2 ^ 32 →
      reduced (exp_phi base e)) ∧
    (∀ v : Nat, to_gfp2 v = GFp2.mk (v % P) 0 ∧ (to_gfp2 v).a < P) ∧
    (∀ (cs : Nat) (l : List GFp2), (∀ v ∈ l, reduced v) →
      ∀ w ∈ binary_haar_transform cs l, reduced w) ∧
    (∀ (l : List GFp2) (f : GFp2), reduced f → (∀ v ∈ l, reduced v) →
      ∀ w ∈ (apply_phi_transform l f).2, reduced w) ∧
    (∀ (s : ForeSystem) (cs : Nat) (l : List GFp2), reduced s.phi_k →
      (∀ v ∈ l, reduced v) → ∀ w ∈ s.to_frequency_domain cs l, reduced w) ∧
    (∀ (s : ForeSystem) (l : List GFp2) (level pos : Nat) (nv : GFp2),
      valid32 nv → valid32 s.phi_k → (∀ v ∈ l, reduced v) →
      ∀ w ∈ s.edit_frequency l level pos nv, reduced w) ∧
    (∀ (s : ForeSystem) (cs : Nat) (bytes : List Nat), reduced s.phi_k →
      ∀ w ∈ s.process_data cs bytes, reduced w) := by
  refine ⟨fun a b ha hb => add_mod_lt ha hb,
    fun a b ha hb => sub_mod_lt ha hb,
    fun a b ha hb => mul_mod_lt (lt_trans ha P_lt_two_pow_32)
      (lt_trans hb P_lt_two_pow_32),
    fun x y hx hy => mul_gfp2_reduced (reduced_valid32 hx)
      (reduced_valid32 hy),
    fun base e hb he => exp_phi_reduced hb he,
    fun v => ⟨rfl, Nat.mod_lt _ P_pos⟩,
    fun cs l hl => haarAux_reduced cs l 0 hl,
    fun l f hf hl => apply_phi_reduced hf hl,
    fun s cs l hf hl => to_frequency_domain_reduced hf hl,
    fun s l level pos nv hnv hk hl => edit_frequency_reduced hnv hk hl,
    fun s cs bytes hf =>
      to_frequency_domain_reduced hf (fun v hv => ?_)⟩
  obtain ⟨b, _, rfl⟩ := List.mem_map.mp hv
  exact to_gfp2_reduced b

/-- Witness for C6 at concrete inputs. -/
theorem C6_reduction_invariant_witness :
    ((5 : Nat) < P ∧ (7 : Nat) < P ∧ add_mod 5 7 < P) ∧
    (reduced (GFp2.mk 1 2) ∧ reduced (GFp2.mk 3 4) ∧
      reduced (mul_gfp2 (GFp2.mk 1 2) (GFp2.mk 3 4))) ∧
    ((∀ v ∈ [GFp2.mk 1 2], reduced v) ∧
      ∀ w ∈ binary_haar_transform 4 [GFp2.mk 1 2], reduced w) :=
  ⟨⟨by decide, by decide, C6_reduction_invariant.1 5 7 (by decide) (by decide)⟩,
   ⟨by decide, by decide,
     C6_reduction_invariant.2.2.2.1 _ _ (by decide) (by decide)⟩,
   ⟨by decide,
     C6_reduction_invariant.2.2.2.2.2.2.1 4 [GFp2.mk 1 2] (by decide)⟩⟩

/-!  C9: verify_relationships characterisation  -/

theorem getD_all_zero {data : List GFp2}
    (h : ∀ v ∈ data, v = GFp2.mk 0 0) (i : Nat) :
    data.getD i (GFp2.mk 0 0) = GFp2.mk 0 0 := by
  rw [List.getD_eq_getElem?_getD]
  cases hx : data[i]? with
  | none => rfl
  | some x =>
    have hmem : x ∈ data := List.mem_iff_getElem?.mpr ⟨i, hx⟩
    rw [h x hmem]
    rfl

theorem verifyLevel_all_zero {data : List GFp2}
    (h : ∀ v ∈ data, v = GFp2.mk 0 0) (span : Nat) :
    verifyLevel data span = true := by
  unfold verifyLevel
  rw [List.all_eq_true]
  intro pos _
  dsimp only
  split_ifs with hc
  · rw [getD_all_zero h, getD_all_zero h]
    rfl
  · rfl

theorem verifyAux_all_zero {data : List GFp2}
    (h : ∀ v ∈ data, v = GFp2.mk 0 0) :
    ∀ fuel level, verifyAux data fuel level = true := by
  intro fuel
  induction fuel with
  | zero => intro level; rfl
  | succ fuel ih =>
    intro level
    show (if 2 ^ level ≤ data.length then
        verifyLevel data (2 ^ level) && verifyAux data fuel (level + 1)
      else true) = true
    split_ifs with hc
    · rw [verifyLevel_all_zero h, ih (level + 1)]
      rfl
    · rfl

theorem verify_level_zero_of_true {data : List GFp2}
    (hlen : 1 ≤ data.length)
    (h : verifyAux data (data.length + 1) 0 = true) :
    verifyLevel data 1 = true := by
  have hstep : verifyAux data (data.length + 1) 0 =
      (if 2 ^ 0 ≤ data.length then
        verifyLevel data (2 ^ 0) && verifyAux data data.length 1
      else true) := rfl
  rw [hstep, if_pos (by simpa using hlen)] at h
  exact (Bool.and_eq_true_iff.mp h).1

theorem verifyLevel_one_zero {data : List GFp2}
    (hl : ∀ v ∈ data, reduced v) (h : verifyLevel data 1 = true) :
    ∀ v ∈ data, v = GFp2.mk 0 0 := by
  intro v hv
  obtain ⟨i, hget⟩ := List.mem_iff_getElem?.mp hv
  have hi : i < data.length := by
    by_contra hcon
    rw [List.getElem?_eq_none (by omega)] at hget
    cases hget
  unfold verifyLevel at h
  rw [List.all_eq_true] at h
  have hp := h i (List.mem_range.mpr (by simpa [Nat.div_one] using hi))
  dsimp only at hp
  rw [Nat.mul_one, show (1 : Nat) / 2 = 0 from rfl, Nat.add_zero,
    if_pos hi] at hp
  rw [List.getD_eq_getElem?_getD, hget] at hp
  have hgd : (some v).getD (GFp2.mk 0 0) = v := rfl
  rw [hgd] at hp
  simp only [Bool.and_eq_true, beq_iff_eq] at hp
  have hva := (add_mod_self_eq_zero (hl v hv).1).mp hp.1
  have hvb := (add_mod_self_eq_zero (hl v hv).2).mp hp.2
  cases v
  simp_all

/-- C9: `verify_relationships` returns true exactly when the sequence is
empty or every element is the zero field element (0, 0): at level 0 each
element is paired with itself and `add_mod(a, a) = 0` over the odd prime p
forces a = 0. -/
theorem C9_verify_iff (s : ForeSystem) (data : List GFp2)
    (hl : ∀ v ∈ data, reduced v) :
    (s.verify_relationships data = true ↔
      data = [] ∨ ∀ v ∈ data, v = GFp2.mk 0 0) := by
  constructor
  · intro h
    cases data with
    | nil => exact Or.inl rfl
    | cons d rest =>
      exact Or.inr (verifyLevel_one_zero hl
        (verify_level_zero_of_true (by simp) h))
  · intro h
    have hz : ∀ v ∈ data, v = GFp2.mk 0 0 := by
      rcases h with h | h
      · subst h
        intro v hv
        cases hv
      · exact h
    exact verifyAux_all_zero hz (data.length + 1) 0

/-- Witness for C9 on concrete sequences. -/
theorem C9_verify_iff_witness :
    (∀ v ∈ [GFp2.mk 0 0, GFp2.mk 0 0], reduced v) ∧
    (ForeSystem.new 0).verify_relationships [GFp2.mk 0 0, GFp2.mk 0 0] =
      true :=
  ⟨by decide,
    (C9_verify_iff (ForeSystem.new 0) [GFp2.mk 0 0, GFp2.mk 0 0]
      (by decide)).mpr (Or.inr (by decide))⟩
